import Mathlib

/-!
Verification development for the MERN blog application
(Post/Category/Comment Mongoose schemas and the post controller).

Strings are modelled as `List Char`; machine time (`Date.now()`) as a `Nat`
millisecond count.  JavaScript string operations used by the code
(`toLowerCase`, `replace(/[^a-zA-Z0-9\s]/g, '')`, `replace(/\s+/g, '-')`,
`trim`, `split(/\s+/)`) are modelled at the ASCII level, which covers the
character classes the repository's regexes talk about.
-/

namespace Blog

/-- ASCII model of the JavaScript regex class `\s`
(space, tab, line feed, carriage return, vertical tab, form feed). -/
def isWS (c : Char) : Bool :=
  c == ' ' || c == '\t' || c == '\n' || c == '\r' || c == '\x0b' || c == '\x0c'

/-- ASCII model of `String.prototype.toLowerCase`. -/
def jsToLower (c : Char) : Char :=
  if 'A' ≤ c && c ≤ 'Z' then Char.ofNat (c.toNat + 32) else c

/-- The character class `[a-zA-Z0-9\s]` kept by the slug-stripping regex
`.replace(/[^a-zA-Z0-9\s]/g, '')`. -/
def keepSlugChar (c : Char) : Bool := c.isAlpha || c.isDigit || isWS c

/-- Model of `.replace(/\s+/g, '-')`: every maximal whitespace run becomes a
single hyphen.  The flag records whether we are inside a whitespace run. -/
def collapseWSAux : Bool → List Char → List Char
  | _, [] => []
  | inWS, c :: cs =>
    if isWS c then
      if inWS then collapseWSAux true cs else '-' :: collapseWSAux true cs
    else c :: collapseWSAux false cs

def collapseWS (l : List Char) : List Char := collapseWSAux false l

/-- Model of `String.prototype.trim`: strips whitespace (and only whitespace,
never hyphens) from both ends. -/
def jsTrim (l : List Char) : List Char :=
  ((l.dropWhile isWS).reverse.dropWhile isWS).reverse

/-- Decimal digit character of `n % 10`. -/
def digitChar (n : Nat) : Char :=
  if n % 10 = 0 then '0' else if n % 10 = 1 then '1' else if n % 10 = 2 then '2'
  else if n % 10 = 3 then '3' else if n % 10 = 4 then '4' else if n % 10 = 5 then '5'
  else if n % 10 = 6 then '6' else if n % 10 = 7 then '7'
  else if n % 10 = 8 then '8' else '9'

def natDigitsGo : Nat → Nat → List Char → List Char
  | 0, _, acc => acc
  | fuel + 1, n, acc =>
    if n < 10 then digitChar n :: acc
    else natDigitsGo fuel (n / 10) (digitChar n :: acc)

/-- Decimal representation of a natural number: model of the implicit
number-to-string conversion of `Date.now()` in `'-' + Date.now()`. -/
def natDigits (n : Nat) : List Char := natDigitsGo (n + 1) n []

/-- Shared slug pipeline of `postSchema.pre('save')` and
`categorySchema.pre('save')` (the two hooks have character-identical bodies up
to the timestamp suffix):
`text.toLowerCase().replace(/[^a-zA-Z0-9\s]/g, '').replace(/\s+/g, '-').trim()`. -/
def slugPipeline (s : List Char) : List Char :=
  jsTrim (collapseWS ((s.map jsToLower).filter keepSlugChar))

/-- `postSchema.pre('save')` slug hook: the pipeline result
followed by `'-' + Date.now()`. -/
def postSlug (title : List Char) (nowMs : Nat) : List Char :=
  slugPipeline title ++ '-' :: natDigits nowMs

/-- `categorySchema.pre('save')` slug hook: the pipeline result, no suffix. -/
def categorySlug (name : List Char) : List Char := slugPipeline name

/-- Trimming of leading and trailing hyphens.  Written from the
specification's words ("trim leading/trailing hyphens"), for comparison with
the code's `jsTrim` which trims whitespace. -/
def trimHyphens (l : List Char) : List Char :=
  ((l.dropWhile (· == '-')).reverse.dropWhile (· == '-')).reverse

/-- The slug algorithm exactly as the specification words it: lowercase,
strip characters outside `[a-zA-Z0-9\s]`, collapse whitespace runs to single
hyphens, then trim leading/trailing hyphens. -/
def specSlugPipeline (s : List Char) : List Char :=
  trimHyphens (collapseWS ((s.map jsToLower).filter keepSlugChar))

/-- Post slug as the specification words it: spec pipeline plus the
timestamp suffix. -/
def specPostSlug (title : List Char) (nowMs : Nat) : List Char :=
  specSlugPipeline title ++ '-' :: natDigits nowMs

/-- Model of `String.prototype.split(/\s+/)`: chunks between maximal
whitespace runs.  As in JavaScript, a leading whitespace run contributes a
leading empty chunk, a trailing run a trailing empty chunk, and the empty
string splits to `[""]`.  The flag records whether we are inside a
whitespace run whose following chunk has not started yet. -/
def splitWSAux : Bool → List Char → List Char → List (List Char)
  | false, [], acc => [acc.reverse]
  | true, [], _ => [[]]
  | false, c :: cs, acc =>
    if isWS c then acc.reverse :: splitWSAux true cs []
    else splitWSAux false cs (c :: acc)
  | true, c :: cs, acc =>
    if isWS c then splitWSAux true cs acc
    else splitWSAux false cs (c :: acc)

def splitWS (l : List Char) : List (List Char) := splitWSAux false l []

/-- The whitespace-separated words of a text: the nonempty chunks of the
whitespace split.  This is the "number of whitespace-separated words" notion
the specification appeals to. -/
def wordsOf (l : List Char) : List (List Char) :=
  (splitWS l).filter (fun w => !w.isEmpty)

/-- Joins words with single spaces (used to build concrete contents). -/
def joinWords : List (List Char) → List Char
  | [] => []
  | [w] => w
  | w :: ws => w ++ ' ' :: joinWords ws

/-- `Math.ceil(a / b)` for natural `a` and positive natural `b`. -/
def mathCeilDiv (a b : Nat) : Nat := (a + b - 1) / b

/-- Model of `.replace(/<[^>]*>/g, '')` in the excerpt hook: removes every
`<`...`>` region (the region may contain further `<`); a `<` with no later
`>` is kept, since the regex then has no match.  The accumulator buffers a
candidate tag (in reverse) so that an unterminated one can be restored. -/
def stripHtmlTagsAux : Option (List Char) → List Char → List Char
  | none, [] => []
  | some buf, [] => buf.reverse
  | none, c :: cs =>
    if c == '<' then stripHtmlTagsAux (some [c]) cs
    else c :: stripHtmlTagsAux none cs
  | some buf, c :: cs =>
    if c == '>' then stripHtmlTagsAux none cs
    else stripHtmlTagsAux (some (c :: buf)) cs

def stripHtmlTags (l : List Char) : List Char := stripHtmlTagsAux none l

/-! ## Post schema and its lifecycle hooks (`server/models/Post.js`) -/

/-- The `status` enum of the post schema: `['draft', 'published', 'archived']`. -/
inductive Status where
  | draft
  | published
  | archived
deriving DecidableEq

/-- One entry of the `likes` array: `{ user, createdAt }`. -/
structure LikeEntry where
  user : Nat
  createdAt : Nat
deriving DecidableEq

/-- The fields of a Post document that the verified claims touch.
`publishedAt = none` models the schema default `null`; `excerpt = []` models
an absent/empty excerpt (both are falsy in JavaScript, which is what the
excerpt hook tests).  Fields not touched by any claim (tags, featuredImage,
flags, seoMetadata, views) are omitted from the model. -/
structure PostDoc where
  id : Nat
  title : List Char
  content : List Char
  excerpt : List Char
  slug : List Char
  author : Nat
  category : Nat
  status : Status
  publishedAt : Option Nat
  readTime : Nat
  likes : List LikeEntry
  createdAt : Nat
deriving DecidableEq

/-- First `postSchema.pre('save')` hook: regenerate the slug when the title
is modified or the document is new. -/
def hookSlug (isNew modifiedTitle : Bool) (nowMs : Nat) (p : PostDoc) : PostDoc :=
  if modifiedTitle || isNew then { p with slug := postSlug p.title nowMs } else p

/-- Second `postSchema.pre('save')` hook: derive the excerpt from the
tag-stripped content (first 150 characters plus `'...'`) when the content is
modified and no excerpt is present. -/
def hookExcerpt (modifiedContent : Bool) (p : PostDoc) : PostDoc :=
  if modifiedContent && p.excerpt.isEmpty then
    { p with excerpt := (stripHtmlTags p.content).take 150 ++ "...".toList }
  else p

/-- Third `postSchema.pre('save')` hook: set `publishedAt` when the status is
modified, is `published`, and `publishedAt` is still null. -/
def hookPublishedAt (modifiedStatus : Bool) (nowMs : Nat) (p : PostDoc) : PostDoc :=
  if modifiedStatus && p.status == Status.published && p.publishedAt == none then
    { p with publishedAt := some nowMs }
  else p

/-- Fourth `postSchema.pre('save')` hook: recompute the read time as
`Math.ceil(content.split(/\s+/).length / 200)` when the content is modified. -/
def hookReadTime (modifiedContent : Bool) (p : PostDoc) : PostDoc :=
  if modifiedContent then
    { p with readTime := mathCeilDiv (splitWS p.content).length 200 }
  else p

/-- Whether `this.isModified('content')` holds: for a new document every set
path is modified; for a loaded document the field is compared with the
stored state `prev`. -/
def contentModified (prev : Option PostDoc) (p : PostDoc) : Bool :=
  match prev with
  | none => true
  | some q => q.content != p.content

def titleModified (prev : Option PostDoc) (p : PostDoc) : Bool :=
  match prev with
  | none => true
  | some q => q.title != p.title

def statusModified (prev : Option PostDoc) (p : PostDoc) : Bool :=
  match prev with
  | none => true
  | some q => q.status != p.status

/-- The document save path: Mongoose runs the four `pre('save')` hooks in
registration order (slug, excerpt, publishedAt, readTime) before persisting.
`prev = none` models a new document (`this.isNew`). -/
def save (prev : Option PostDoc) (nowMs : Nat) (p : PostDoc) : PostDoc :=
  hookReadTime (contentModified prev p)
    (hookPublishedAt (statusModified prev p) nowMs
      (hookExcerpt (contentModified prev p)
        (hookSlug prev.isNone (titleModified prev p) nowMs p)))

/-- The update document built by the `updatePost` controller from the request
body.  `none` models a field that the spread `...(field && { field })` (or
the `!== undefined` guard, for `excerpt`) leaves out of the update. -/
structure UpdateBody where
  title : Option (List Char) := none
  content : Option (List Char) := none
  excerpt : Option (List Char) := none
  category : Option Nat := none
  status : Option Status := none
deriving DecidableEq

/-- `Post.findByIdAndUpdate(id, update, { new: true, runValidators: true })`
as used by `updatePost`: the update document is applied directly by the
store.  Per Mongoose semantics, `findByIdAndUpdate` runs *query* middleware,
not the document `pre('save')` hooks, so no slug/excerpt/publishedAt/readTime
recomputation happens on this path. -/
def findByIdAndUpdate (body : UpdateBody) (p : PostDoc) : PostDoc :=
  { p with
    title := body.title.getD p.title
    content := body.content.getD p.content
    excerpt := body.excerpt.getD p.excerpt
    category := body.category.getD p.category
    status := body.status.getD p.status }

/-- Whether the given user has liked: `likes.some(l => l.user === userId)`
(`postSchema.methods.isLikedBy`, identical in the comment schema). -/
def isLikedBy (userId : Nat) (likes : List LikeEntry) : Bool :=
  likes.any (fun l => l.user == userId)

/-- `postSchema.methods.toggleLike`: if an entry for the user exists, remove
every entry of that user, otherwise push a fresh `{ user }` entry. -/
def postToggleLike (userId nowMs : Nat) (likes : List LikeEntry) : List LikeEntry :=
  if (likes.find? (fun l => l.user == userId)).isSome then
    likes.filter (fun l => l.user != userId)
  else
    likes ++ [⟨userId, nowMs⟩]

/-- `commentSchema.methods.toggleLike`: character-identical to the post
version. -/
def commentToggleLike (userId nowMs : Nat) (likes : List LikeEntry) : List LikeEntry :=
  if (likes.find? (fun l => l.user == userId)).isSome then
    likes.filter (fun l => l.user != userId)
  else
    likes ++ [⟨userId, nowMs⟩]

/-! ## Pagination metadata of `getAllPosts` (`controllers/postController`) -/

structure PaginationMeta where
  currentPage : Nat
  totalPages : Nat
  totalPosts : Nat
  hasNextPage : Bool
  hasPrevPage : Bool
deriving DecidableEq

/-- The pagination object returned by `getAllPosts`:
`{ currentPage: parseInt(page), totalPages: Math.ceil(total / limit),
totalPosts: total, hasNextPage: page < Math.ceil(total / limit),
hasPrevPage: page > 1 }`. -/
def paginationMeta (page limit total : Nat) : PaginationMeta :=
  { currentPage := page
    totalPages := mathCeilDiv total limit
    totalPosts := total
    hasNextPage := decide (page < mathCeilDiv total limit)
    hasPrevPage := decide (1 < page) }

/-! ## Comment schema (`server/models/Comment.js`) -/

/-- The fields of a Comment document that the verified claims touch.
`parentComment = none` models the schema default `null` (a top-level
comment). -/
structure CommentDoc where
  id : Nat
  post : Nat
  parentComment : Option Nat
  isApproved : Bool
  createdAt : Nat
deriving DecidableEq

/-- Ascending creation-time order (`sort({ createdAt: 1 })`). -/
def createdAsc (a b : CommentDoc) : Prop := a.createdAt ≤ b.createdAt

instance : DecidableRel createdAsc := fun a b => Nat.decLe a.createdAt b.createdAt

instance : IsTotal CommentDoc createdAsc := ⟨fun a b => Nat.le_total a.createdAt b.createdAt⟩

instance : IsTrans CommentDoc createdAsc := ⟨fun _ _ _ => Nat.le_trans⟩

/-- Descending creation-time order (the `findByPost` default
`sortBy = 'createdAt', sortOrder = -1`). -/
def createdDesc (a b : CommentDoc) : Prop := b.createdAt ≤ a.createdAt

instance : DecidableRel createdDesc := fun a b => Nat.decLe b.createdAt a.createdAt

instance : IsTotal CommentDoc createdDesc := ⟨fun a b => Nat.le_total b.createdAt a.createdAt⟩

instance : IsTrans CommentDoc createdDesc := ⟨fun _ _ _ h h2 => Nat.le_trans h2 h⟩

/-- `commentSchema.statics.findByPost` with its default sort options: the
query filters on the post, on `isApproved: true` and — unless
`includeReplies` is set, in which case the `parentComment: undefined` key is
deleted from the query — on `parentComment: null`; the result is sorted by
creation time descending and paginated with `skip((page - 1) * limit)` and
`limit`.  The database sort is modelled by a stable sort. -/
def findByPost (postId : Nat) (page limit : Nat) (includeReplies : Bool)
    (comments : List CommentDoc) : List CommentDoc :=
  ((List.insertionSort createdDesc
      (comments.filter (fun c =>
        c.post == postId && c.isApproved &&
          (includeReplies || c.parentComment == none)))).drop
    ((page - 1) * limit)).take limit

/-- `commentSchema.statics.findReplies`: approved comments whose
`parentComment` equals the given comment, sorted by creation time
ascending. -/
def findReplies (commentId : Nat) (comments : List CommentDoc) : List CommentDoc :=
  List.insertionSort createdAsc
    (comments.filter (fun c => c.parentComment == some commentId && c.isApproved))

/-- `postSchema.pre('remove')`: `Comment.deleteMany({ post: this._id })` —
every comment referencing the post is deleted (the post document itself is
then removed from the posts collection, which the comment store does not
see). -/
def postRemoveComments (postId : Nat) (comments : List CommentDoc) : List CommentDoc :=
  comments.filter (fun c => c.post != postId)

/-- `comment.remove()`: `commentSchema.pre('remove')` first runs
`Comment.deleteMany({ parentComment: this._id })` (which, being a query
operation, does not trigger the removed replies' own `remove` middleware),
then the comment itself is removed. -/
def commentRemove (commentId : Nat) (comments : List CommentDoc) : List CommentDoc :=
  (comments.filter (fun c => c.parentComment != some commentId)).filter
    (fun c => c.id != commentId)

/-! ## Category schema (`server/models/Category.js`) -/

structure CategoryDoc where
  id : Nat
  name : String
  isActive : Bool
  sortOrder : Nat
deriving DecidableEq

/-- A result row of the `withPostCounts` aggregation: the category together
with its computed `postCount`. -/
structure CatCount where
  cat : CategoryDoc
  postCount : Nat
deriving DecidableEq

/-- The `$sort: { sortOrder: 1, name: 1 }` order of the aggregation. -/
def catOrder (a b : CatCount) : Prop :=
  a.cat.sortOrder < b.cat.sortOrder ∨
    (a.cat.sortOrder = b.cat.sortOrder ∧ a.cat.name ≤ b.cat.name)

instance : DecidableRel catOrder := fun _ _ => by
  unfold catOrder; infer_instance

instance : IsTotal CatCount catOrder := by
  constructor
  intro a b
  rcases Nat.lt_trichotomy a.cat.sortOrder b.cat.sortOrder with h | h | h
  · exact Or.inl (Or.inl h)
  · rcases le_total a.cat.name b.cat.name with hn | hn
    · exact Or.inl (Or.inr ⟨h, hn⟩)
    · exact Or.inr (Or.inr ⟨h.symm, hn⟩)
  · exact Or.inr (Or.inl h)

instance : IsTrans CatCount catOrder := by
  constructor
  intro a b c hab hbc
  rcases hab with h1 | ⟨h1, h1n⟩
  · rcases hbc with h2 | ⟨h2, _⟩
    · exact Or.inl (h1.trans h2)
    · exact Or.inl (h2 ▸ h1)
  · rcases hbc with h2 | ⟨h2, h2n⟩
    · exact Or.inl (h1 ▸ h2)
    · exact Or.inr ⟨h1.trans h2, le_trans h1n h2n⟩

/-- The `$count: 'count'` stage of the `$lookup` sub-pipeline: it emits a
single document holding the input size, or no document at all when its input
is empty. -/
def countStage (l : List PostDoc) : List Nat :=
  if l.isEmpty then [] else [l.length]

/-- The per-category post count computed by the aggregation:
`$ifNull: [{ $arrayElemAt: ['$posts.count', 0] }, 0]` over the sub-pipeline
`[{ $match: { status: 'published' } }, { $count: 'count' }]` applied to the
posts joined on `category`. -/
def lookupPublishedCount (c : CategoryDoc) (posts : List PostDoc) : Nat :=
  ((countStage (posts.filter
      (fun p => p.category == c.id && p.status == Status.published))).get? 0).getD 0

/-- `categorySchema.statics.withPostCounts`: match active categories, attach
the published-post count, sort by `sortOrder` then `name`. -/
def withPostCounts (cats : List CategoryDoc) (posts : List PostDoc) : List CatCount :=
  List.insertionSort catOrder
    ((cats.filter (fun c => c.isActive)).map
      (fun c => ⟨c, lookupPublishedCount c posts⟩))

/-- The domain error raised by `categorySchema.pre('remove')`. -/
structure DomainError where
  message : String
  statusCode : Nat
deriving DecidableEq

/-- `category.remove()`: `categorySchema.pre('remove')` counts the posts
referencing the category whose status is not `archived`; when the count is
positive it passes an error (status code 400) to `next`, which aborts the
removal and leaves the store unchanged; otherwise the category is removed and
posts are untouched. -/
def categoryRemove (cat : CategoryDoc) (cats : List CategoryDoc)
    (posts : List PostDoc) : Except DomainError (List CategoryDoc × List PostDoc) :=
  let postCount := (posts.filter
    (fun p => p.category == cat.id && p.status != Status.archived)).length
  if postCount > 0 then
    Except.error
      ⟨"Cannot delete category that has active posts. Please move or delete the posts first.",
        400⟩
  else
    Except.ok (cats.filter (fun c => c.id != cat.id), posts)

/-! ## `getPost` identifier resolution (`controllers/postController`) -/

def isHexChar (c : Char) : Bool :=
  ('0' ≤ c && c ≤ '9') || ('a' ≤ c && c ≤ 'f') || ('A' ≤ c && c ≤ 'F')

/-- Model of `mongoose.Types.ObjectId.isValid` (external library, documented
behavior): accepts a 24-character hex string, or any 12-character string
(interpreted as 12 raw bytes). -/
def objectIdIsValid (s : List Char) : Bool :=
  s.length == 12 || (s.length == 24 && s.all isHexChar)

/-- A post as seen by the `getPost` lookup: its `_id` (in hex-string form)
and its `slug`. -/
structure PostRec where
  oid : List Char
  slug : List Char
deriving DecidableEq

/-- `getPost`: `isValid(identifier)` selects the lookup strategy, then
`Post.findOne(query)` resolves it — `{ _id: identifier }` when the
identifier passes ObjectId validation, `{ slug: identifier }` otherwise. -/
def getPost (identifier : List Char) (posts : List PostRec) : Option PostRec :=
  if objectIdIsValid identifier then
    posts.find? (fun p => p.oid == identifier)
  else
    posts.find? (fun p => p.slug == identifier)

/-! ## Concrete documents used by witnesses and counterexamples -/

/-- A draft post with null `publishedAt`, as created by `createPost` with the
default status. -/
def demoDraft : PostDoc :=
  { id := 1
    title := "Getting Started with MERN".toList
    content := "This walkthrough covers MongoDB Express React and Node basics in detail.".toList
    excerpt := []
    slug := []
    author := 1
    category := 1
    status := Status.draft
    publishedAt := none
    readTime := 0
    likes := []
    createdAt := 0 }

/-- A content of 199 words surrounded by one leading and one trailing
space. -/
def cex7content : List Char := ' ' :: (joinWords (List.replicate 199 ['a']) ++ [' '])

/-! # Theorems -/

/-- C4: deleting a Post deletes exactly the comments whose `post` field
references it; deleting a Comment deletes exactly itself and the comments
whose `parentComment` references it directly — every other comment, in
particular any grandchild reply, survives. -/
theorem cascade_delete_spec (postId commentId : Nat) (comments : List CommentDoc)
    (d : CommentDoc) :
    (d ∈ postRemoveComments postId comments ↔ d ∈ comments ∧ d.post ≠ postId) ∧
    (d ∈ commentRemove commentId comments ↔
      d ∈ comments ∧ d.id ≠ commentId ∧ d.parentComment ≠ some commentId) := by
  constructor
  · simp [postRemoveComments, List.mem_filter]
  · simp only [commentRemove, List.mem_filter, bne_iff_ne, ne_eq]
    tauto

/-- C5: removing a category fails with the specific 400 domain error exactly
when some post references it with a non-archived status; otherwise the
category is removed and the posts are untouched; a rejected removal changes
nothing. -/
theorem category_remove_spec (cat : CategoryDoc) (cats : List CategoryDoc)
    (posts : List PostDoc) :
    ((∃ e, categoryRemove cat cats posts = Except.error e) ↔
      ∃ p ∈ posts, p.category = cat.id ∧ p.status ≠ Status.archived) ∧
    (categoryRemove cat cats posts =
        Except.error
          ⟨"Cannot delete category that has active posts. Please move or delete the posts first.",
            400⟩ ∨
      categoryRemove cat cats posts =
        Except.ok (cats.filter (fun c => c.id != cat.id), posts)) := by
  have hiff : 0 < (posts.filter
      (fun p => p.category == cat.id && p.status != Status.archived)).length ↔
      ∃ p ∈ posts, p.category = cat.id ∧ p.status ≠ Status.archived := by
    rw [List.length_pos_iff_exists_mem]
    simp [List.mem_filter]
  unfold categoryRemove
  by_cases h : 0 < (posts.filter
      (fun p => p.category == cat.id && p.status != Status.archived)).length
  · simp only [if_pos h]
    exact ⟨⟨fun _ => hiff.mp h, fun _ => ⟨_, rfl⟩⟩, Or.inl trivial⟩
  · simp only [if_neg h]
    constructor
    · constructor
      · rintro ⟨e, he⟩
        exact absurd he (by simp)
      · intro hex
        exact absurd (hiff.mpr hex) h
    · exact Or.inr trivial

/-- C10: `getPost` looks a post up by `_id` exactly when the identifier
passes ObjectId validation and by slug otherwise; consequently a post whose
slug itself passes ObjectId validation (for instance any 12-character slug)
is unreachable by slug: when no post's id equals that string the lookup
returns nothing even though a post with that slug is in the store. -/
theorem getPost_lookup_spec (identifier : List Char) (posts : List PostRec) :
    (objectIdIsValid identifier = true →
      getPost identifier posts = posts.find? (fun p => p.oid == identifier)) ∧
    (objectIdIsValid identifier = false →
      getPost identifier posts = posts.find? (fun p => p.slug == identifier)) ∧
    (∀ p ∈ posts, p.slug = identifier → objectIdIsValid identifier = true →
      (∀ q ∈ posts, q.oid ≠ identifier) → getPost identifier posts = none) := by
  refine ⟨fun h => by simp [getPost, h], fun h => by simp [getPost, h], ?_⟩
  intro p _ _ hvalid hq
  simp only [getPost, hvalid, if_true, List.find?_eq_none]
  intro q hqmem
  simpa using hq q hqmem

/-- Witness for C10: a store containing one post whose slug is the
12-character string `hello-mernjs`; that slug passes ObjectId validation and
`getPost` returns nothing for it. -/
theorem getPost_lookup_spec_witness :
    getPost "hello-mernjs".toList
      [{ oid := "507f1f77bcf86cd799439011".toList, slug := "hello-mernjs".toList }] = none := by
  have h := (getPost_lookup_spec "hello-mernjs".toList
    [{ oid := "507f1f77bcf86cd799439011".toList, slug := "hello-mernjs".toList }]).2.2
  exact h { oid := "507f1f77bcf86cd799439011".toList, slug := "hello-mernjs".toList }
    (by simp) rfl (by decide) (by intro q hq; simp at hq; rw [hq]; decide)

/-- C6: the pagination metadata of `getAllPosts` satisfies the specification
for every page ≥ 1 and limit ≥ 1: the current page and total count are echoed
back, `totalPages` is the ceiling of `total / limit` (characterised by the
two inequalities), and the next/previous flags hold exactly when a next or a
previous page exists. -/
theorem pagination_spec (page limit total : Nat) (hp : 1 ≤ page) (hl : 1 ≤ limit) :
    (paginationMeta page limit total).currentPage = page ∧
    (paginationMeta page limit total).totalPosts = total ∧
    total ≤ (paginationMeta page limit total).totalPages * limit ∧
    (paginationMeta page limit total).totalPages * limit < total + limit ∧
    ((paginationMeta page limit total).hasNextPage = true ↔ page * limit < total) ∧
    ((paginationMeta page limit total).hasPrevPage = true ↔ 1 < page) := by
  have hl0 : 0 < limit := hl
  have hub : mathCeilDiv total limit * limit ≤ total + limit - 1 :=
    Nat.div_mul_le_self _ _
  have hlb : total + limit - 1 < (mathCeilDiv total limit + 1) * limit :=
    (Nat.div_lt_iff_lt_mul hl0).mp (Nat.lt_succ_self _)
  rw [Nat.succ_mul] at hlb
  simp only [paginationMeta]
  refine ⟨trivial, trivial, by omega, by omega, ?_, ?_⟩
  · simp only [decide_eq_true_eq]
    constructor
    · intro h
      have h2 : (page + 1) * limit ≤ mathCeilDiv total limit * limit :=
        Nat.mul_le_mul_right _ h
      rw [Nat.succ_mul] at h2
      omega
    · intro h
      have h2 : (page + 1) * limit ≤ total + limit - 1 := by
        rw [Nat.succ_mul]
        omega
      exact (Nat.le_div_iff_mul_le hl0).mpr h2
  · simp [paginationMeta]

section ToggleLike

/-- A user is in the like set exactly when some entry carries their id. -/
theorem isLikedBy_iff {v : Nat} {likes : List LikeEntry} :
    isLikedBy v likes = true ↔ ∃ l ∈ likes, l.user = v := by
  simp [isLikedBy]

theorem length_filter_not_add (p : LikeEntry → Bool) (l : List LikeEntry) :
    (l.filter (fun a => !p a)).length + l.countP p = l.length := by
  induction l with
  | nil => simp
  | cons a l ih =>
    by_cases h : p a = true <;> simp [h, List.countP_cons, ← ih] <;> omega

/-- When the user is absent, toggling appends one fresh entry. -/
theorem postToggleLike_absent {u : Nat} (nowMs : Nat) {likes : List LikeEntry}
    (h : isLikedBy u likes = false) :
    postToggleLike u nowMs likes = likes ++ [⟨u, nowMs⟩] := by
  have hfind : (likes.find? (fun l => l.user == u)).isSome = false := by
    rw [Bool.eq_false_iff]
    intro hs
    rw [List.find?_isSome] at hs
    obtain ⟨x, hx, hxu⟩ := hs
    exact absurd (isLikedBy_iff.mpr ⟨x, hx, by simpa using hxu⟩) (by simp [h])
  simp [postToggleLike, hfind]

/-- When the user is present, toggling removes every entry of that user. -/
theorem postToggleLike_present {u : Nat} (nowMs : Nat) {likes : List LikeEntry}
    (h : isLikedBy u likes = true) :
    postToggleLike u nowMs likes = likes.filter (fun l => l.user != u) := by
  obtain ⟨x, hx, hxu⟩ := isLikedBy_iff.mp h
  have hfind : (likes.find? (fun l => l.user == u)).isSome = true :=
    List.find?_isSome.mpr ⟨x, hx, by simp [hxu]⟩
  simp [postToggleLike, hfind]

/-- Nobody with a different id is affected by a filter on `u`, and the
filtered list no longer mentions `u`. -/
theorem isLikedBy_filter {u v : Nat} (likes : List LikeEntry) :
    isLikedBy v (likes.filter (fun l => l.user != u)) =
      if v = u then false else isLikedBy v likes := by
  split
  · next hv =>
    subst hv
    rw [Bool.eq_false_iff]
    intro hs
    obtain ⟨l, hl, hlu⟩ := isLikedBy_iff.mp hs
    rw [List.mem_filter] at hl
    exact absurd hlu (by simpa using hl.2)
  · next hv =>
    rw [Bool.eq_iff_iff, isLikedBy_iff, isLikedBy_iff]
    constructor
    · rintro ⟨l, hl, hlu⟩
      exact ⟨l, (List.mem_filter.mp hl).1, hlu⟩
    · rintro ⟨l, hl, hlu⟩
      exact ⟨l, List.mem_filter.mpr ⟨hl, by simp [hlu, hv]⟩, hlu⟩

theorem isLikedBy_append_single {u v nowMs : Nat} (likes : List LikeEntry) :
    isLikedBy v (likes ++ [⟨u, nowMs⟩]) =
      if v = u then true else isLikedBy v likes := by
  split
  · next hv => subst hv; simp [isLikedBy]
  · next hv =>
    rw [Bool.eq_iff_iff, isLikedBy_iff, isLikedBy_iff]
    constructor
    · rintro ⟨l, hl, hlu⟩
      rcases List.mem_append.mp hl with h | h
      · exact ⟨l, h, hlu⟩
      · simp at h
        rw [h] at hlu
        exact absurd hlu.symm hv
    · rintro ⟨l, hl, hlu⟩
      exact ⟨l, List.mem_append.mpr (Or.inl hl), hlu⟩

end ToggleLike

/-- C3: a single toggle flips the requesting user's like-membership — it adds
the user exactly when absent and removes them exactly when present — and two
toggles by the same user restore everyone's like-membership and (for a store
with at most one entry per user, which is the only kind the toggle ever
creates) the like count; the comment schema's toggle is the identical
operation. -/
theorem toggleLike_involution (likes : List LikeEntry) (u v n1 n2 : Nat)
    (hdup : likes.countP (fun l => l.user == u) ≤ 1) :
    (isLikedBy u (postToggleLike u n1 likes) = !isLikedBy u likes) ∧
    (isLikedBy v (postToggleLike u n2 (postToggleLike u n1 likes)) = isLikedBy v likes) ∧
    ((postToggleLike u n2 (postToggleLike u n1 likes)).length = likes.length) ∧
    (isLikedBy u likes = false → postToggleLike u n1 likes = likes ++ [⟨u, n1⟩]) ∧
    (isLikedBy u likes = true →
      postToggleLike u n1 likes = likes.filter (fun l => l.user != u)) ∧
    (∀ uu nn ll, commentToggleLike uu nn ll = postToggleLike uu nn ll) := by
  by_cases h : isLikedBy u likes = true
  · have h1 := postToggleLike_present n1 h
    have hu1 : isLikedBy u (postToggleLike u n1 likes) = false := by
      rw [h1, isLikedBy_filter, if_pos rfl]
    have h2 : postToggleLike u n2 (postToggleLike u n1 likes) =
        likes.filter (fun l => l.user != u) ++ [⟨u, n2⟩] := by
      rw [postToggleLike_absent n2 hu1, h1]
    refine ⟨by rw [hu1, h]; rfl, ?_, ?_, fun hf => absurd h (by simp [hf]),
      fun _ => h1, fun _ _ _ => rfl⟩
    · rw [h2, isLikedBy_append_single, isLikedBy_filter]
      split
      · next hv => rw [hv, h]
      · rfl
    · have hcount : 0 < likes.countP (fun l => l.user == u) := by
        obtain ⟨x, hx, hxu⟩ := isLikedBy_iff.mp h
        exact List.countP_pos_iff.mpr ⟨x, hx, by simp [hxu]⟩
      have hlen := length_filter_not_add (fun l => l.user == u) likes
      have hfeq : (likes.filter (fun l => l.user != u)) =
          (likes.filter (fun l => !(l.user == u))) := by
        simp [bne]
      rw [h2, List.length_append, hfeq]
      simp only [List.length_cons, List.length_nil]
      omega
  · have h0 : isLikedBy u likes = false := by simpa using h
    have h1 := postToggleLike_absent n1 h0
    have hu1 : isLikedBy u (postToggleLike u n1 likes) = true := by
      rw [h1, isLikedBy_append_single, if_pos rfl]
    have hnolike : likes.filter (fun l => l.user != u) = likes := by
      rw [List.filter_eq_self]
      intro a ha
      by_contra hne
      simp only [bne_iff_ne, ne_eq, not_not] at hne
      exact absurd (isLikedBy_iff.mpr ⟨a, ha, hne⟩) (by simp [h0])
    have h2 : postToggleLike u n2 (postToggleLike u n1 likes) = likes := by
      rw [postToggleLike_present n2 hu1, h1, List.filter_append, hnolike]
      simp
    refine ⟨by rw [hu1, h0]; rfl, by rw [h2], by rw [h2],
      fun _ => h1, fun ht => absurd ht (by simp [h0]), fun _ _ _ => rfl⟩

/-- Witness for C3: toggling twice on a one-entry like set of user 7 keeps
the count at one, and the first toggle removes the like. -/
theorem toggleLike_involution_witness :
    (postToggleLike 7 2 (postToggleLike 7 1 [⟨7, 0⟩])).length = 1 ∧
    isLikedBy 7 (postToggleLike 7 1 [⟨7, 0⟩]) = false := by
  have h := toggleLike_involution [⟨7, 0⟩] 7 7 1 2 (by decide)
  exact ⟨h.2.2.1, by rw [h.1]; decide⟩

section SlugLemmas

/-- A character allowed by the specification in a generated slug. -/
def isSlugChar (c : Char) : Prop :=
  ('a' ≤ c ∧ c ≤ 'z') ∨ ('0' ≤ c ∧ c ≤ '9') ∨ c = '-'

theorem char_le_toNat {a b : Char} : a ≤ b ↔ a.toNat ≤ b.toNat := Iff.rfl

theorem toNat_ofNat_valid (m : Nat) (h : m < 55296) : (Char.ofNat m).toNat = m := by
  unfold Char.ofNat
  rw [dif_pos (Or.inl h)]
  simp [Char.ofNatAux, Char.toNat, UInt32.toNat, UInt32.ofNatCore]

/-- Lowercasing never produces an ASCII uppercase letter. -/
theorem jsToLower_not_upper (d : Char) : (jsToLower d).isUpper = false := by
  unfold jsToLower
  by_cases h : ('A' ≤ d && d ≤ 'Z') = true
  · rw [if_pos h]
    obtain ⟨h1, h2⟩ := Bool.and_eq_true_iff.mp h
    have h1n : (65 : Nat) ≤ d.toNat := char_le_toNat.mp (of_decide_eq_true h1)
    have h2n : d.toNat ≤ 90 := char_le_toNat.mp (of_decide_eq_true h2)
    have hof : (Char.ofNat (d.toNat + 32)).toNat = d.toNat + 32 :=
      toNat_ofNat_valid _ (by omega)
    have hno : ¬ (Char.ofNat (d.toNat + 32) ≤ 'Z') := by
      rw [char_le_toNat]
      have hz : ('Z' : Char).toNat = 90 := rfl
      omega
    show (Char.ofNat (d.toNat + 32)).isUpper = false
    have : Char.isUpper (Char.ofNat (d.toNat + 32)) =
        ('A' ≤ Char.ofNat (d.toNat + 32) && Char.ofNat (d.toNat + 32) ≤ 'Z') := rfl
    rw [this]
    simp [hno]
  · rw [if_neg h]
    have hu : d.isUpper = ('A' ≤ d && d ≤ 'Z') := rfl
    rw [hu]
    simpa using h

theorem isLower_range {c : Char} (h : c.isLower = true) : 'a' ≤ c ∧ c ≤ 'z' := by
  have hl : c.isLower = ('a' ≤ c && c ≤ 'z') := rfl
  rw [hl] at h
  obtain ⟨h1, h2⟩ := Bool.and_eq_true_iff.mp h
  exact ⟨of_decide_eq_true h1, of_decide_eq_true h2⟩

theorem isDigit_range {c : Char} (h : c.isDigit = true) : '0' ≤ c ∧ c ≤ '9' := by
  have hd : c.isDigit = ('0' ≤ c && c ≤ '9') := rfl
  rw [hd] at h
  obtain ⟨h1, h2⟩ := Bool.and_eq_true_iff.mp h
  exact ⟨of_decide_eq_true h1, of_decide_eq_true h2⟩

/-- Characters kept by the strip-then-lowercase stage that are not
whitespace are lowercase letters or digits. -/
theorem slug_char_range (t : List Char) (c : Char)
    (hc : c ∈ (t.map jsToLower).filter keepSlugChar) (hnws : isWS c = false) :
    ('a' ≤ c ∧ c ≤ 'z') ∨ ('0' ≤ c ∧ c ≤ '9') := by
  rw [List.mem_filter] at hc
  obtain ⟨hmem, hkeep⟩ := hc
  rw [List.mem_map] at hmem
  obtain ⟨d, _, hd⟩ := hmem
  unfold keepSlugChar at hkeep
  rw [hnws, Bool.or_false] at hkeep
  rcases Bool.or_eq_true_iff.mp hkeep with h | h
  · have ha : c.isAlpha = (c.isUpper || c.isLower) := rfl
    rw [ha] at h
    rcases Bool.or_eq_true_iff.mp h with h2 | h2
    · rw [← hd, jsToLower_not_upper d] at h2
      exact absurd h2 (by simp)
    · exact Or.inl (isLower_range h2)
  · exact Or.inr (isDigit_range h)

/-- Whatever the collapse stage emits is a hyphen or a non-whitespace
character of its input. -/
theorem mem_collapseWSAux (l : List Char) :
    ∀ (b : Bool) (c : Char), c ∈ collapseWSAux b l →
      c = '-' ∨ (c ∈ l ∧ isWS c = false) := by
  induction l with
  | nil => intro b c hc; simp [collapseWSAux] at hc
  | cons a l ih =>
    intro b c hc
    by_cases ha : isWS a = true
    · cases b with
      | true =>
        simp only [collapseWSAux, ha, if_true] at hc
        rcases ih true c hc with h | ⟨h1, h2⟩
        · exact Or.inl h
        · exact Or.inr ⟨List.mem_cons_of_mem a h1, h2⟩
      | false =>
        simp only [collapseWSAux, ha, if_true] at hc
        rcases List.mem_cons.mp hc with h | h
        · exact Or.inl h
        · rcases ih true c h with h2 | ⟨h2, h3⟩
          · exact Or.inl h2
          · exact Or.inr ⟨List.mem_cons_of_mem a h2, h3⟩
    · have ha2 : isWS a = false := by simpa using ha
      cases b with
      | true =>
        simp only [collapseWSAux, ha2] at hc
        rcases List.mem_cons.mp hc with h | h
        · exact Or.inr ⟨by rw [h]; exact List.mem_cons_self a l, by rw [h]; exact ha2⟩
        · rcases ih false c h with h2 | ⟨h2, h3⟩
          · exact Or.inl h2
          · exact Or.inr ⟨List.mem_cons_of_mem a h2, h3⟩
      | false =>
        simp only [collapseWSAux, ha2] at hc
        rcases List.mem_cons.mp hc with h | h
        · exact Or.inr ⟨by rw [h]; exact List.mem_cons_self a l, by rw [h]; exact ha2⟩
        · rcases ih false c h with h2 | ⟨h2, h3⟩
          · exact Or.inl h2
          · exact Or.inr ⟨List.mem_cons_of_mem a h2, h3⟩

theorem mem_jsTrim (l : List Char) (c : Char) (hc : c ∈ jsTrim l) : c ∈ l := by
  unfold jsTrim at hc
  rw [List.mem_reverse] at hc
  have h1 := (List.dropWhile_sublist isWS).subset hc
  rw [List.mem_reverse] at h1
  exact (List.dropWhile_sublist isWS).subset h1

/-- Every character of the code's slug pipeline result is a lowercase
letter, a digit, or a hyphen. -/
theorem slugPipeline_chars (t : List Char) (c : Char) (hc : c ∈ slugPipeline t) :
    isSlugChar c := by
  unfold slugPipeline at hc
  have h1 := mem_jsTrim _ _ hc
  unfold collapseWS at h1
  rcases mem_collapseWSAux _ false c h1 with h | ⟨h2, h3⟩
  · exact Or.inr (Or.inr h)
  · rcases slug_char_range t c h2 h3 with h | h
    · exact Or.inl h
    · exact Or.inr (Or.inl h)

theorem digitChar_range (n : Nat) : '0' ≤ digitChar n ∧ digitChar n ≤ '9' := by
  unfold digitChar
  repeat' split
  all_goals decide

theorem digitChar_toNat (n : Nat) : (digitChar n).toNat = 48 + n % 10 := by
  have h : n % 10 < 10 := Nat.mod_lt _ (by omega)
  unfold digitChar
  repeat' split
  all_goals first
    | (rename_i hk
       rw [hk]
       decide)
    | (have h9 : n % 10 = 9 := by omega
       rw [h9]
       decide)

/-- `pushNum a n` appends the decimal digits of `n` to the running value
`a` (helper for reading `natDigits` back as a number). -/
def pushNum (a n : Nat) : Nat :=
  if n < 10 then 10 * a + n
  else 10 * pushNum a (n / 10) + n % 10
termination_by n
decreasing_by exact Nat.div_lt_self (by omega) (by omega)

def valStep (a : Nat) (c : Char) : Nat := 10 * a + (c.toNat - 48)

theorem natDigitsGo_foldl (fuel : Nat) :
    ∀ n acc a, n < fuel →
      (natDigitsGo fuel n acc).foldl valStep a = acc.foldl valStep (pushNum a n) := by
  induction fuel with
  | zero => intro n acc a h; omega
  | succ fuel ih =>
    intro n acc a h
    by_cases h10 : n < 10
    · simp only [natDigitsGo, if_pos h10, List.foldl_cons]
      rw [pushNum, if_pos h10]
      have hv : valStep a (digitChar n) = 10 * a + n := by
        unfold valStep
        rw [digitChar_toNat]
        omega
      rw [hv]
    · simp only [natDigitsGo, if_neg h10]
      rw [ih (n / 10) (digitChar n :: acc) a (by omega), List.foldl_cons]
      have hv : valStep (pushNum a (n / 10)) (digitChar n) =
          10 * pushNum a (n / 10) + n % 10 := by
        unfold valStep
        rw [digitChar_toNat]
        omega
      have hp : pushNum a n = 10 * pushNum a (n / 10) + n % 10 := by
        rw [pushNum]
        rw [if_neg h10]
      rw [hv, hp]

theorem pushNum_zero (n : Nat) : pushNum 0 n = n := by
  induction n using Nat.strong_induction_on with
  | _ n ih =>
    rw [pushNum]
    split
    · omega
    · next h10 =>
      rw [ih (n / 10) (Nat.div_lt_self (by omega) (by omega))]
      omega

theorem natDigits_val (n : Nat) : (natDigits n).foldl valStep 0 = n := by
  rw [natDigits, natDigitsGo_foldl (n + 1) n [] 0 (Nat.lt_succ_self n)]
  simp [pushNum_zero]

theorem natDigits_inj {n1 n2 : Nat} (h : natDigits n1 = natDigits n2) : n1 = n2 := by
  have h1 := natDigits_val n1
  rw [h, natDigits_val n2] at h1
  exact h1.symm

theorem mem_natDigitsGo (fuel : Nat) :
    ∀ n acc c, c ∈ natDigitsGo fuel n acc →
      (∀ d ∈ acc, '0' ≤ d ∧ d ≤ '9') → ('0' ≤ c ∧ c ≤ '9') := by
  induction fuel with
  | zero => intro n acc c hc hacc; exact hacc c hc
  | succ fuel ih =>
    intro n acc c hc hacc
    by_cases h10 : n < 10
    · simp only [natDigitsGo, if_pos h10] at hc
      rcases List.mem_cons.mp hc with h | h
      · rw [h]; exact digitChar_range n
      · exact hacc c h
    · simp only [natDigitsGo, if_neg h10] at hc
      refine ih (n / 10) _ c hc ?_
      intro d hd
      rcases List.mem_cons.mp hd with h | h
      · rw [h]; exact digitChar_range n
      · exact hacc d h

end SlugLemmas

/-- Counterexample for C2: the claimed pipeline trims leading/trailing
hyphens, but the code's `trim` runs after whitespace has already been
replaced by hyphens and is therefore a no-op: the title `*** hello ***`
produces the slug `-hello--1` (with timestamp 1), not the claimed
`hello-1`. -/
theorem slug_trim_counterexample :
    postSlug "*** hello ***".toList 1 = "-hello--1".toList ∧
    specPostSlug "*** hello ***".toList 1 = "hello-1".toList ∧
    postSlug "*** hello ***".toList 1 ≠ specPostSlug "*** hello ***".toList 1 := by
  exact ⟨by decide, by decide, by decide⟩

/-- C2 (amended): the slug computed before persistence is the code pipeline
— lowercase, strip characters outside `[a-zA-Z0-9\s]`, collapse whitespace
runs to single hyphens, trim whitespace (by then a no-op, so leading and
trailing hyphens survive).  Every character of a generated Post slug is a
lowercase letter, a digit or a hyphen; Category slugs satisfy the same and
differ from Post slugs only by the absent timestamp suffix; Posts saved at
distinct timestamps receive distinct slugs even for identical titles. -/
theorem slug_amended_spec (t : List Char) (n1 n2 : Nat) :
    (∀ c ∈ postSlug t n1, isSlugChar c) ∧
    (∀ c ∈ categorySlug t, isSlugChar c) ∧
    postSlug t n1 = categorySlug t ++ '-' :: natDigits n1 ∧
    (n1 ≠ n2 → postSlug t n1 ≠ postSlug t n2) := by
  refine ⟨?_, fun c hc => slugPipeline_chars t c hc, rfl, ?_⟩
  · intro c hc
    rw [postSlug, List.mem_append] at hc
    rcases hc with h | h
    · exact slugPipeline_chars t c h
    · rcases List.mem_cons.mp h with h2 | h2
      · exact Or.inr (Or.inr h2)
      · exact Or.inr (Or.inl (mem_natDigitsGo (n1 + 1) n1 [] c h2 (by simp)))
  · intro hne heq
    rw [postSlug, postSlug] at heq
    have h1 := List.append_cancel_left heq
    have h2 : natDigits n1 = natDigits n2 := by simpa using h1
    exact hne (natDigits_inj h2)

/-- Witness for C2 (amended): a concrete title gives a slug of allowed
characters only, and different timestamps give different slugs. -/
theorem slug_amended_witness :
    (∀ c ∈ postSlug "My First Post".toList 5, isSlugChar c) ∧
    postSlug "My First Post".toList 5 ≠ postSlug "My First Post".toList 6 := by
  have h := slug_amended_spec "My First Post".toList 5 6
  exact ⟨h.1, h.2.2.2 (by decide)⟩

section SavePath

theorem hookSlug_content (b m : Bool) (n : Nat) (p : PostDoc) :
    (hookSlug b m n p).content = p.content := by
  unfold hookSlug
  split <;> rfl

theorem hookExcerpt_content (b : Bool) (p : PostDoc) :
    (hookExcerpt b p).content = p.content := by
  unfold hookExcerpt
  split <;> rfl

theorem hookPublishedAt_content (b : Bool) (n : Nat) (p : PostDoc) :
    (hookPublishedAt b n p).content = p.content := by
  unfold hookPublishedAt
  split <;> rfl

/-- Whenever the content is modified, the save path ends by recomputing the
read time from the whitespace split of the (unchanged) content. -/
theorem save_readTime (prev : Option PostDoc) (nowMs : Nat) (p : PostDoc)
    (h : contentModified prev p = true) :
    (save prev nowMs p).readTime = mathCeilDiv (splitWS p.content).length 200 := by
  unfold save hookReadTime
  rw [h]
  simp [hookPublishedAt_content, hookExcerpt_content, hookSlug_content]

theorem splitWSAux_word (w : List Char) (hw : ∀ c ∈ w, isWS c = false) :
    ∀ cs acc, splitWSAux false (w ++ cs) acc = splitWSAux false cs (w.reverse ++ acc) := by
  induction w with
  | nil => intro cs acc; simp
  | cons c w ih =>
    intro cs acc
    have hc : isWS c = false := hw c (List.mem_cons_self c w)
    have hw2 : ∀ d ∈ w, isWS d = false := fun d hd => hw d (List.mem_cons_of_mem c hd)
    rw [List.cons_append]
    show splitWSAux false (c :: (w ++ cs)) acc = _
    simp only [splitWSAux, hc]
    rw [ih hw2 cs (c :: acc)]
    simp [List.reverse_cons, List.append_assoc]

theorem splitWSAux_space (cs acc : List Char) :
    splitWSAux false (' ' :: cs) acc = acc.reverse :: splitWSAux true cs [] := rfl

theorem splitWSAux_flag (d : Char) (hd : isWS d = false) (X acc : List Char) :
    splitWSAux true (d :: X) acc = splitWSAux false (d :: X) acc := by
  simp [splitWSAux, hd]

theorem joinWords_cons (w : List Char) (rest : List (List Char)) :
    ∃ t, joinWords (w :: rest) = w ++ t := by
  cases rest with
  | nil => exact ⟨[], by simp [joinWords]⟩
  | cons w2 r2 => exact ⟨' ' :: joinWords (w2 :: r2), rfl⟩

/-- Splitting a space-joined list of nonempty whitespace-free words recovers
exactly those words. -/
theorem splitWS_joinWords (l : List (List Char)) (hne : l ≠ [])
    (hw : ∀ w ∈ l, w ≠ [] ∧ ∀ c ∈ w, isWS c = false) :
    splitWS (joinWords l) = l := by
  induction l with
  | nil => exact absurd rfl hne
  | cons w rest ih =>
    have hwword := (hw w (List.mem_cons_self w rest)).2
    cases rest with
    | nil =>
      have hjw : joinWords [w] = w := rfl
      rw [splitWS, hjw]
      have h2 := splitWSAux_word w hwword [] []
      rw [List.append_nil] at h2
      rw [h2]
      simp [splitWSAux]
    | cons w2 r2 =>
      have hrest : ∀ ww ∈ w2 :: r2, ww ≠ [] ∧ ∀ c ∈ ww, isWS c = false :=
        fun ww hww => hw ww (List.mem_cons_of_mem w hww)
      have hjw : joinWords (w :: w2 :: r2) = w ++ ' ' :: joinWords (w2 :: r2) := rfl
      rw [splitWS, hjw, splitWSAux_word w hwword, List.append_nil, splitWSAux_space]
      obtain ⟨t, ht⟩ := joinWords_cons w2 r2
      obtain ⟨hw2ne, hw2ws⟩ := hrest w2 (List.mem_cons_self w2 r2)
      cases w2 with
      | nil => exact absurd rfl hw2ne
      | cons d ds =>
        have hd : isWS d = false := hw2ws d (List.mem_cons_self d ds)
        rw [ht, List.cons_append, splitWSAux_flag d hd, ← List.cons_append, ← ht]
        have hrec := ih (by simp) hrest
        rw [splitWS] at hrec
        rw [hrec, List.reverse_reverse]

end SavePath

/-- C1 (code-bug evidence): on the document save path, publishing a draft
post whose `publishedAt` is null sets `publishedAt` to the current time; but
the `updatePost` controller operation — `findByIdAndUpdate`, which does not
run the document `pre('save')` middleware — moves the same draft to
`published` while leaving `publishedAt` null, contrary to the claimed
behavior of the update path. -/
theorem publishedAt_update_path_divergence :
    demoDraft.status = Status.draft ∧
    demoDraft.publishedAt = none ∧
    (save (some demoDraft) 42 { demoDraft with status := Status.published }).publishedAt =
      some 42 ∧
    (findByIdAndUpdate { status := some Status.published } demoDraft).status =
      Status.published ∧
    (findByIdAndUpdate { status := some Status.published } demoDraft).publishedAt = none := by
  refine ⟨rfl, rfl, ?_, rfl, rfl⟩
  decide

set_option maxRecDepth 100000 in
/-- Counterexample for C7: a content of 199 whitespace-separated words with
one leading and one trailing space.  The save path stores `readTime = 2`,
while ceiling of word count over 200 is 1 — the split length (201) is not
the word count (199). -/
theorem readTime_wordcount_counterexample :
    (wordsOf cex7content).length = 199 ∧
    mathCeilDiv (wordsOf cex7content).length 200 = 1 ∧
    (splitWS cex7content).length = 201 ∧
    (save none 0 { demoDraft with content := cex7content }).readTime = 2 := by
  refine ⟨by decide, by decide, by decide, ?_⟩
  rw [save_readTime none 0 _ rfl]
  decide

/-- C7 (amended): whenever the content changes on the save path, `readTime`
is recomputed as the ceiling of the `split(/\s+/)` chunk count over 200; for
content that is a nonempty space-joined word list (no leading or trailing
whitespace), the chunk count is exactly the word count, so the read time is
the ceiling of the word count over 200. -/
theorem readTime_amended_spec (prev : Option PostDoc) (nowMs : Nat) (p : PostDoc)
    (ws : List (List Char)) (hmod : contentModified prev p = true)
    (hcontent : p.content = joinWords ws) (hne : ws ≠ [])
    (hw : ∀ w ∈ ws, w ≠ [] ∧ ∀ c ∈ w, isWS c = false) :
    (save prev nowMs p).readTime = mathCeilDiv (splitWS p.content).length 200 ∧
    (save prev nowMs p).readTime = mathCeilDiv ws.length 200 := by
  have h1 := save_readTime prev nowMs p hmod
  refine ⟨h1, ?_⟩
  rw [h1, hcontent, splitWS_joinWords ws hne hw]

set_option maxRecDepth 100000 in
/-- Witness for C7 (amended): contents of exactly 200 and of exactly 401
space-separated words store read times 1 and 3. -/
theorem readTime_amended_witness :
    (save none 0 { demoDraft with content := joinWords (List.replicate 200 ['a']) }).readTime
      = 1 ∧
    (save none 0 { demoDraft with content := joinWords (List.replicate 401 ['a']) }).readTime
      = 3 := by
  constructor
  · have h := readTime_amended_spec none 0
      { demoDraft with content := joinWords (List.replicate 200 ['a']) }
      (List.replicate 200 ['a']) rfl rfl (by simp)
      (fun w hwm => by rw [List.eq_of_mem_replicate hwm]; exact ⟨by decide, by decide⟩)
    rw [h.2]
    decide
  · have h := readTime_amended_spec none 0
      { demoDraft with content := joinWords (List.replicate 401 ['a']) }
      (List.replicate 401 ['a']) rfl rfl (by simp)
      (fun w hwm => by rw [List.eq_of_mem_replicate hwm]; exact ⟨by decide, by decide⟩)
    rw [h.2]
    decide

/-- C8: listing comments of a post without replies yields only approved
top-level comments of that post; `findReplies` yields exactly the approved
direct children of the given comment, in ascending creation-time order;
neither query ever returns an unapproved comment. -/
theorem comment_queries_spec (postId commentId page limit : Nat)
    (comments : List CommentDoc) :
    (∀ c ∈ findByPost postId page limit false comments,
      c.post = postId ∧ c.isApproved = true ∧ c.parentComment = none) ∧
    (∀ c, c ∈ findReplies commentId comments ↔
      c ∈ comments ∧ c.parentComment = some commentId ∧ c.isApproved = true) ∧
    (findReplies commentId comments).Sorted createdAsc := by
  refine ⟨?_, ?_, List.sorted_insertionSort _ _⟩
  · intro c hc
    have hc2 : c ∈ List.insertionSort createdDesc
        (comments.filter (fun c =>
          c.post == postId && c.isApproved && (false || c.parentComment == none))) :=
      List.mem_of_mem_drop (List.mem_of_mem_take hc)
    rw [List.mem_insertionSort, List.mem_filter] at hc2
    have := hc2.2
    simp at this
    exact ⟨this.1.1, this.1.2, this.2⟩
  · intro c
    rw [findReplies, List.mem_insertionSort, List.mem_filter]
    simp

/-- Witness for C8: in a three-comment store (a top-level comment, an
approved reply and an unapproved reply), the approved reply is returned by
`findReplies` and every result of the top-level listing has no parent. -/
theorem comment_queries_spec_witness :
    (⟨2, 10, some 1, true, 6⟩ : CommentDoc) ∈
      findReplies 1 [⟨1, 10, none, true, 5⟩, ⟨2, 10, some 1, true, 6⟩,
        ⟨3, 10, some 1, false, 7⟩] ∧
    (∀ c ∈ findByPost 10 1 10 false
        [⟨1, 10, none, true, 5⟩, ⟨2, 10, some 1, true, 6⟩, ⟨3, 10, some 1, false, 7⟩],
      c.parentComment = none) := by
  have h := comment_queries_spec 10 1 1 10
    [⟨1, 10, none, true, 5⟩, ⟨2, 10, some 1, true, 6⟩, ⟨3, 10, some 1, false, 7⟩]
  exact ⟨(h.2.1 _).mpr (by refine ⟨by simp, rfl, rfl⟩),
    fun c hc => (h.1 c hc).2.2⟩

/-- The aggregation's per-category count equals the number of published
posts referencing the category (the `$count` stage emits no document on an
empty input, and `$ifNull` then supplies 0). -/
theorem lookupPublishedCount_eq (c : CategoryDoc) (posts : List PostDoc) :
    lookupPublishedCount c posts =
      (posts.filter (fun p => p.category == c.id && p.status == Status.published)).length := by
  unfold lookupPublishedCount countStage
  by_cases h : (posts.filter
      (fun p => p.category == c.id && p.status == Status.published)).isEmpty
  · rw [if_pos h]
    simp [List.isEmpty_iff_length_eq_zero.mp h]
  · rw [if_neg h]
    rfl

/-- C9: every row of `withPostCounts` is an active category carrying exactly
its published-post count (0 when none, drafts and archived posts excluded);
every active category gets a row; the rows are ordered by `sortOrder` then
`name`. -/
theorem withPostCounts_spec (cats : List CategoryDoc) (posts : List PostDoc) :
    (∀ e ∈ withPostCounts cats posts,
      e.cat.isActive = true ∧
      e.postCount =
        (posts.filter (fun p => p.category == e.cat.id && p.status == Status.published)).length) ∧
    (∀ c ∈ cats, c.isActive = true → ∃ e ∈ withPostCounts cats posts, e.cat = c) ∧
    (withPostCounts cats posts).Sorted catOrder := by
  refine ⟨?_, ?_, List.sorted_insertionSort _ _⟩
  · intro e he
    rw [withPostCounts, List.mem_insertionSort, List.mem_map] at he
    obtain ⟨c, hc, hec⟩ := he
    rw [List.mem_filter] at hc
    subst hec
    exact ⟨hc.2, lookupPublishedCount_eq c posts⟩
  · intro c hc hact
    refine ⟨⟨c, lookupPublishedCount c posts⟩, ?_, rfl⟩
    rw [withPostCounts, List.mem_insertionSort, List.mem_map]
    exact ⟨c, List.mem_filter.mpr ⟨hc, hact⟩, rfl⟩

/-- Witness for C9: with one active category referenced by one published,
one draft and one archived post, the aggregation reports a count of exactly
one. -/
theorem withPostCounts_spec_witness :
    ∃ e ∈ withPostCounts [⟨1, "news", true, 0⟩]
        [{ demoDraft with category := 1, status := Status.published },
          { demoDraft with id := 2, category := 1, status := Status.draft },
          { demoDraft with id := 3, category := 1, status := Status.archived }],
      e.cat = ⟨1, "news", true, 0⟩ ∧ e.postCount = 1 := by
  have h := withPostCounts_spec [⟨1, "news", true, 0⟩]
    [{ demoDraft with category := 1, status := Status.published },
      { demoDraft with id := 2, category := 1, status := Status.draft },
      { demoDraft with id := 3, category := 1, status := Status.archived }]
  obtain ⟨e, he, hec⟩ := h.2.1 ⟨1, "news", true, 0⟩ (by simp) rfl
  refine ⟨e, he, hec, ?_⟩
  rw [(h.1 e he).2, hec]
  decide

/-- Witness for C6: the specification's own instance — page 2, limit 10,
25 total posts — gives three total pages and both navigation flags set. -/
theorem pagination_spec_witness :
    1 ≤ 2 ∧ 1 ≤ 10 ∧
    (paginationMeta 2 10 25).totalPages = 3 ∧
    (paginationMeta 2 10 25).hasNextPage = true ∧
    (paginationMeta 2 10 25).hasPrevPage = true := by
  refine ⟨by decide, by decide, by decide, ?_, ?_⟩
  · exact (pagination_spec 2 10 25 (by decide) (by decide)).2.2.2.2.1.mpr (by decide)
  · exact (pagination_spec 2 10 25 (by decide) (by decide)).2.2.2.2.2.mpr (by decide)

end Blog
